import Mathlib

/-!
Verification of the genetic-algorithm engine in `src/shallow/ga_decimal.py`.

The numpy arrays are embedded as lists of rationals: a population of shape
P × G is a `List (List ℚ)` with P rows, each of length G; a fitness vector
is a `List ℚ`.  Floating-point values are modelled exactly by `ℚ` (the
program only adds, multiplies and compares; no rounding behaviour is at
stake in the claims).  Randomness (`np.random.uniform`) is modelled by an
ambient stream of draws `r : Nat → ℚ` supplied as an explicit argument.
Operations that can raise a numpy error (out-of-bounds indexing, reduction
of an empty array, modulo by zero) return `Option`, with `none` for the
raised error.
-/

set_option maxRecDepth 10000

namespace GaDecimal

/-- Model of `np.max` on a one-dimensional array; the callers guard the
empty case (where `np.max` raises) before using it. -/
def npMax : List ℚ → ℚ
  | [] => 0
  | x :: xs => xs.foldl max x

/-- Model of `np.where(t_fitness_val == np.max(t_fitness_val))[0][0]`:
the first index at which the vector attains its maximum
(`ga_decimal.py` lines 95-96). -/
def selectIdx (fit : List ℚ) : Nat :=
  fit.findIdx fun x => decide (x = npMax fit)

/-- Value of `np.iinfo(np.int32).min`, the minimum of a 32-bit signed
integer, as an exact rational. -/
def int32_min : ℚ := -2147483648

/-- The value the selector writes over the chosen fitness entry,
`-np.iinfo(np.int32).min` (`ga_decimal.py` line 98).  Note the leading
minus sign in the source: the written value is `-(-2^31) = +2^31`,
a large POSITIVE number. -/
def selection_sentinel : ℚ := -int32_min

/-- The `for idx in range(t_parents)` loop of `make_selection`
(`ga_decimal.py` lines 93-98), in state-passing style: the mutable
fitness array is threaded through, and the rows copied into `survivors`
are accumulated in order in `acc`.  `none` models a numpy error: `np.max`
over an empty vector, or a row index that falls outside the population. -/
def selection_loop (pop : List (List ℚ)) : Nat → List ℚ → List (List ℚ) →
    Option (List (List ℚ) × List ℚ)
  | 0, fit, acc => some (acc, fit)
  | k + 1, fit, acc =>
    if fit.isEmpty then none
    else
      match pop.get? (selectIdx fit) with
      | none => none
      | some row => selection_loop pop k (fit.set (selectIdx fit) selection_sentinel)
          (acc ++ [row])

/-- Model of `make_selection(t_population, t_fitness_val, t_parents)`
(`ga_decimal.py` lines 77-100).  Returns the selected parents together
with the final state of the (mutated in place) fitness vector. -/
def make_selection (t_population : List (List ℚ)) (t_fitness_val : List ℚ)
    (t_parents : Nat) : Option (List (List ℚ) × List ℚ) :=
  selection_loop t_population t_parents t_fitness_val []

/-- Model of `crossover_point = np.uint8(t_size[1]/2)` (`ga_decimal.py`
line 51): Python float division truncated by the cast to `uint8`, which
also wraps modulo 256. -/
def crossover_point (G : Nat) : Nat := G / 2 % 256

/-- Model of `crossover(t_survivor, t_size)` (`ga_decimal.py` lines 37-61).
Row `i` of the offspring receives genes `0..c-1` of parent `i % K` and
genes `c..` of parent `(i+1) % K` (the two slice assignments on lines
55-60; with all rows of the common width `t_size[1]`, the two slices cover
the whole row, so the `np.empty` contents never survive).  `none` models
the `ZeroDivisionError`-like failure of `i % t_survivor.shape[0]` when the
parent pool is empty. -/
def crossover (t_survivor : List (List ℚ)) (t_size : Nat × Nat) :
    Option (List (List ℚ)) :=
  if t_survivor.isEmpty then none
  else
    some ((List.range t_size.1).map fun i =>
      ((t_survivor.getD (i % t_survivor.length) []).take (crossover_point t_size.2))
        ++ ((t_survivor.getD ((i + 1) % t_survivor.length) []).drop
              (crossover_point t_size.2)))

/-- The `for idx in range(t_offspring.shape[0])` loop of `mutate`
(`ga_decimal.py` lines 31-33): row `idx` draws `r idx` (the model of
`np.random.uniform(-1., 1., 1)`) and adds it to its gene at index 4.
`none` models the `IndexError` raised by `t_offspring[idx, 4]` when a row
has fewer than 5 genes. -/
def mutate_loop (r : Nat → ℚ) : Nat → List (List ℚ) → Option (List (List ℚ))
  | _, [] => some []
  | idx, row :: rest =>
    match row.get? 4 with
    | none => none
    | some x =>
      (mutate_loop r (idx + 1) rest).map fun rest2 => row.set 4 (x + r idx) :: rest2

/-- Model of `mutate(t_offspring)` (`ga_decimal.py` lines 22-34), with the
stream of random draws made explicit. -/
def mutate (r : Nat → ℚ) (t_offspring : List (List ℚ)) :
    Option (List (List ℚ)) :=
  mutate_loop r 0 t_offspring

/-- Model of `evaluate_fitness(t_eq, t_population)` (`ga_decimal.py` lines
64-75): `np.sum(t_population * t_eq, axis=1)`, i.e. each row multiplied
elementwise with the equation and summed along the gene axis. -/
def evaluate_fitness (t_eq : List ℚ) (t_population : List (List ℚ)) : List ℚ :=
  t_population.map fun row => (List.zipWith (fun a b => a * b) row t_eq).sum

/-- Spec-side formulation of the fitness score: the dot product of the
first `G` genes with the first `G` coefficients (stated with an explicit
indexed sum, to be compared against `evaluate_fitness`, which is
translated from the source). -/
def dot_product (xs ys : List ℚ) (G : Nat) : ℚ :=
  Finset.sum (Finset.range G) fun j => xs.getD j 0 * ys.getD j 0

/-- Model of the numpy slice assignment `dst[start:start+len(vals), ...] = vals`
on the row axis: rows `start..start+len(vals)-1` of `dst` are overwritten
by `vals` (the shapes agree wherever the driver uses it, so no broadcast
error can occur there). -/
def assign_rows (dst : List (List ℚ)) (start : Nat) (vals : List (List ℚ)) :
    List (List ℚ) :=
  dst.take start ++ vals ++ dst.drop (start + vals.length)

/-- One iteration of the generational loop in `__main__` (`ga_decimal.py`
lines 112-121), with the configured constants `P = pop_size[0]`,
`G = weights`, `K = parent_donors` as parameters:
fitness evaluation, selection, crossover into shape `(P - K, G)`,
mutation, then the two row-slice assignments
`pop[0:K, :] = parents; pop[K:, :] = offspring_mut`. -/
def generation_step (r : Nat → ℚ) (eq : List ℚ) (P G K : Nat)
    (pop : List (List ℚ)) : Option (List (List ℚ)) :=
  (make_selection pop (evaluate_fitness eq pop) K).bind fun ps =>
    (crossover ps.1 (P - ps.1.length, G)).bind fun cro =>
      (mutate r cro).map fun mu =>
        assign_rows (assign_rows pop 0 ps.1) ps.1.length mu

/-- The `for gen in range(generations)` driver loop (`ga_decimal.py` lines
112-121); `rs g` is the stream of mutation draws used in generation `g`. -/
def ga_loop (rs : Nat → Nat → ℚ) (eq : List ℚ) (P G K : Nat) :
    Nat → List (List ℚ) → Option (List (List ℚ))
  | 0, pop => some pop
  | g + 1, pop =>
    (generation_step (rs g) eq P G K pop).bind (ga_loop rs eq P G K g)

/-- State-passing rendering of the `crossover` loop used to settle the
frame claim about the parent pool: the state carries the two arrays the
source touches, `t_survivor` (read only) and `offspring` (written). -/
structure CrossoverState where
  survivor : List (List ℚ)
  offspring : List (List ℚ)
deriving DecidableEq

/-- Model of the row-slice assignment `row[lo:lo+len(vals)] = vals`. -/
def row_set_slice (row : List ℚ) (lo : Nat) (vals : List ℚ) : List ℚ :=
  row.take lo ++ vals ++ row.drop (lo + vals.length)

/-- Model of `offspring[i, lo:...] = vals`: the only kind of write the
`crossover` loop performs, and it targets the `offspring` array. -/
def write_offspring (s : CrossoverState) (i lo : Nat) (vals : List ℚ) :
    CrossoverState :=
  CrossoverState.mk s.survivor
    (s.offspring.set i (row_set_slice (s.offspring.getD i []) lo vals))

/-- Body of `for i in range(t_size[0])` in `crossover` (`ga_decimal.py`
lines 53-60): read the two parent rows, write the two halves of offspring
row `i`. -/
def crossover_body (c : Nat) (s : CrossoverState) (i : Nat) : CrossoverState :=
  write_offspring
    (write_offspring s i 0 ((s.survivor.getD (i % s.survivor.length) []).take c))
    i c ((s.survivor.getD ((i + 1) % s.survivor.length) []).drop c)

/-- The whole of `crossover` as a state machine over `CrossoverState`,
starting from the uninitialised `np.empty(t_size)` buffer `init`
(its contents are arbitrary, hence a parameter). -/
def crossover_run (t_survivor : List (List ℚ)) (t_size : Nat × Nat)
    (init : List (List ℚ)) : Option CrossoverState :=
  if t_survivor.isEmpty then none
  else
    some ((List.range t_size.1).foldl (crossover_body (crossover_point t_size.2))
      (CrossoverState.mk t_survivor init))

/-- The concrete population used to exercise the selector on the spec's
own example fitness vector `[3, 7, 1, 7]`: four one-gene candidates with
pairwise distinct genes, so equal rows imply equal selected indices. -/
def pop4 : List (List ℚ) := [[10], [11], [12], [13]]

/-- A population whose fitness values (under the equation `[1]`) exceed the
`2^31` sentinel, exercising the selector in the regime where the sentinel
does not dominate the remaining scores. -/
def popBig : List (List ℚ) := [[3000000000], [2500000000], [1]]

/-! Basic facts about `npMax` and `selectIdx`. -/

theorem le_foldl_max (l : List ℚ) : ∀ a : ℚ, a ≤ l.foldl max a := by
  induction l with
  | nil => intro a; exact le_refl a
  | cons x xs ih =>
    intro a
    exact le_trans (le_max_left a x) (ih (max a x))

theorem foldl_max_ub (l : List ℚ) : ∀ (a y : ℚ), y ∈ l → y ≤ l.foldl max a := by
  induction l with
  | nil => intro a y hy; cases hy
  | cons x xs ih =>
    intro a y hy
    rcases List.mem_cons.mp hy with h | h
    · subst h
      exact le_trans (le_max_right a y) (le_foldl_max xs (max a y))
    · exact ih (max a x) y h

theorem foldl_max_mem (l : List ℚ) : ∀ a : ℚ, l.foldl max a = a ∨ l.foldl max a ∈ l := by
  induction l with
  | nil => intro a; left; rfl
  | cons x xs ih =>
    intro a
    rcases ih (max a x) with h | h
    · rcases max_choice a x with hc | hc
      · left
        simp only [List.foldl_cons]
        rw [h, hc]
      · right
        simp only [List.foldl_cons]
        rw [h, hc]
        exact List.mem_cons_self x xs
    · right
      simp only [List.foldl_cons]
      exact List.mem_cons_of_mem x h

theorem npMax_mem {fit : List ℚ} (h : fit ≠ []) : npMax fit ∈ fit := by
  cases fit with
  | nil => exact absurd rfl h
  | cons x xs =>
    rcases foldl_max_mem xs x with hm | hm
    · rw [npMax, hm]; exact List.mem_cons_self x xs
    · exact List.mem_cons_of_mem x hm

theorem le_npMax {fit : List ℚ} {y : ℚ} (hy : y ∈ fit) : y ≤ npMax fit := by
  cases fit with
  | nil => cases hy
  | cons x xs =>
    rcases List.mem_cons.mp hy with h | h
    · subst h; exact le_foldl_max xs y
    · exact foldl_max_ub xs x y h

theorem selectIdx_lt_length {fit : List ℚ} (h : fit ≠ []) :
    selectIdx fit < fit.length :=
  List.findIdx_lt_length_of_exists ⟨npMax fit, npMax_mem h, by simp⟩

theorem getD_selectIdx {fit : List ℚ} (h : fit ≠ []) :
    fit.getD (selectIdx fit) 0 = npMax fit := by
  have hlt : selectIdx fit < fit.length := selectIdx_lt_length h
  have hp : decide (fit[selectIdx fit] = npMax fit) = true :=
    List.findIdx_getElem (w := hlt)
  have heq : fit[selectIdx fit] = npMax fit := of_decide_eq_true hp
  rw [List.getD_eq_getElem?_getD, List.getElem?_eq_getElem hlt]
  simpa using heq

theorem selectIdx_lowest {fit : List ℚ} {j : Nat} (hj : j < selectIdx fit) :
    fit.getD j 0 ≠ npMax fit := by
  have hlen : j < fit.length :=
    Nat.lt_of_lt_of_le hj (List.findIdx_le_length _)
  have hp : decide (fit[j] = npMax fit) = false := List.not_of_lt_findIdx hj
  have hne : ¬ fit[j] = npMax fit := of_decide_eq_false hp
  rw [List.getD_eq_getElem?_getD, List.getElem?_eq_getElem hlen]
  simpa using hne

/-! Structure of the selection loop. -/

theorem selection_loop_mem (pop : List (List ℚ)) :
    ∀ (K : Nat) (fit : List ℚ) (acc surv : List (List ℚ)) (ffit : List ℚ),
      selection_loop pop K fit acc = some (surv, ffit) →
      (∀ row ∈ acc, row ∈ pop) → ∀ row ∈ surv, row ∈ pop := by
  intro K
  induction K with
  | zero =>
    intro fit acc surv ffit h hacc
    rw [selection_loop] at h
    injection h with h
    injection h with h1 h2
    subst h1
    exact hacc
  | succ k ih =>
    intro fit acc surv ffit h hacc
    rw [selection_loop] at h
    by_cases he : fit.isEmpty
    · simp [he] at h
    · simp only [he, if_false] at h
      cases hg : pop.get? (selectIdx fit) with
      | none => rw [hg] at h; cases h
      | some row =>
        rw [hg] at h
        refine ih _ _ _ _ h ?_
        intro q hq
        rcases List.mem_append.mp hq with h1 | h1
        · exact hacc q h1
        · rw [List.mem_singleton.mp h1]
          exact List.get?_mem hg

theorem selection_loop_some (pop : List (List ℚ)) (hpop : pop ≠ []) :
    ∀ (K : Nat) (fit : List ℚ) (acc : List (List ℚ)),
      fit.length = pop.length →
      ∃ surv ffit, selection_loop pop K fit acc = some (surv, ffit)
        ∧ surv.length = acc.length + K ∧ ffit.length = fit.length := by
  intro K
  induction K with
  | zero =>
    intro fit acc _
    exact ⟨acc, fit, by rw [selection_loop], by simp, rfl⟩
  | succ k ih =>
    intro fit acc hlen
    have hfit : fit ≠ [] := by
      intro hnil
      exact hpop (List.length_eq_zero.mp (by simpa [hnil] using hlen.symm))
    have hidx : selectIdx fit < pop.length := hlen ▸ selectIdx_lt_length hfit
    have hget : pop.get? (selectIdx fit) = some (pop.get ⟨selectIdx fit, hidx⟩) :=
      List.get?_eq_get hidx
    obtain ⟨surv, ffit, hrun, hslen, hflen⟩ :=
      ih (fit.set (selectIdx fit) selection_sentinel)
        (acc ++ [pop.get ⟨selectIdx fit, hidx⟩]) (by simpa using hlen)
    refine ⟨surv, ffit, ?_, ?_, by simpa using hflen⟩
    · rw [selection_loop]
      simp only [List.isEmpty_iff, hfit, if_false]
      rw [hget]
      exact hrun
    · rw [hslen]
      simp
      omega

/-- Claim C9: whenever `make_selection` returns a parent pool, every row of that
pool is (a copy of) a row of the input population — even in the degenerate
regimes where the sentinel causes the same row to be selected repeatedly,
no foreign gene values are synthesized. -/
theorem make_selection_rows_from_population (pop : List (List ℚ)) (fit : List ℚ)
    (K : Nat) (surv : List (List ℚ)) (ffit : List ℚ)
    (h : make_selection pop fit K = some (surv, ffit)) :
    ∀ row ∈ surv, row ∈ pop :=
  selection_loop_mem pop K fit [] surv ffit h (by intro q hq; cases hq)

/-- Witness for C9: in the concrete run on `pop4` with fitness
`[3, 7, 1, 7]` and `K = 2`, the first returned parent really is a row of
`pop4`. -/
theorem make_selection_rows_from_population_witness : [(11 : ℚ)] ∈ pop4 :=
  make_selection_rows_from_population pop4 [3, 7, 1, 7] 2 [[11], [11]]
    [3, 2147483648, 1, 7]
    (by
      simp [make_selection, selection_loop, selectIdx, npMax, selection_sentinel,
        int32_min, pop4, List.findIdx, List.findIdx.go, max_def]
      norm_num)
    [11] (by simp)

/-- Claim C1: the code contradicts the claim.  The value written over the chosen
fitness entry is `-np.iinfo(np.int32).min = -(-2^31) = +2147483648`, a large
POSITIVE number, not a negative sentinel; consequently, on the population
`pop4` with fitness `[3, 7, 1, 7]` and `K = 2` the maximal entry of the
updated vector is the sentinel itself, the same index 1 is chosen in both
iterations, and the two selected rows coincide (row `[11]` twice) instead
of being pairwise distinct. -/
theorem make_selection_sentinel_is_positive :
    selection_sentinel = 2147483648
    ∧ (0 : ℚ) < selection_sentinel
    ∧ make_selection pop4 [3, 7, 1, 7] 2
        = some ([[11], [11]], [3, 2147483648, 1, 7])
    ∧ pop4.getD 1 [] = [11] := by
  refine ⟨by norm_num [selection_sentinel, int32_min],
    by norm_num [selection_sentinel, int32_min], ?_, by simp [pop4]⟩
  simp [make_selection, selection_loop, selectIdx, npMax, selection_sentinel,
    int32_min, pop4, List.findIdx, List.findIdx.go, max_def]
  norm_num

/-- Claim C2: the code contradicts the claim.  On the spec's own example —
fitness vector `[3, 7, 1, 7]`, `K = 2` — the returned parents are the rows
of index 1 and index 1 again (`[[11], [11]]` for `pop4`), not the rows of
indices 1 and 3 (`[[11], [13]]`).  Moreover the recomputed parent scores
can even increase along the selection order: with fitness values above
`2^31` (equation `[1]`, population `popBig`), the three parents score
`3000000000, 2500000000, 3000000000` — the third exceeds the second. -/
theorem make_selection_example_rows_and_nonmonotone :
    (make_selection pop4 [3, 7, 1, 7] 2).map Prod.fst = some [[11], [11]]
    ∧ ([[(11 : ℚ)], [11]] : List (List ℚ)) ≠ [[11], [13]]
    ∧ pop4.getD 3 [] = [13]
    ∧ evaluate_fitness [1] popBig = [3000000000, 2500000000, 1]
    ∧ (make_selection popBig (evaluate_fitness [1] popBig) 3).map Prod.fst
        = some [[3000000000], [2500000000], [3000000000]]
    ∧ evaluate_fitness [1] [[3000000000], [2500000000], [3000000000]]
        = [3000000000, 2500000000, 3000000000]
    ∧ ¬ ((3000000000 : ℚ) ≤ 2500000000) := by
  refine ⟨?_, by simp, by simp [pop4], ?_, ?_, ?_, by norm_num⟩
  · simp [make_selection, selection_loop, selectIdx, npMax, selection_sentinel,
      int32_min, pop4, List.findIdx, List.findIdx.go, max_def]
    norm_num
  · norm_num [evaluate_fitness, popBig]
  · simp [make_selection, selection_loop, selectIdx, npMax, selection_sentinel,
      int32_min, popBig, evaluate_fitness, List.findIdx, List.findIdx.go, max_def]
    norm_num
  · norm_num [evaluate_fitness]

/-- Claim C3: in every selection iteration of `make_selection`, the chosen index
`selectIdx fit` is a valid index of the current fitness vector, the value
there is the maximum of the vector, and every strictly smaller index holds
a value different from the maximum — i.e. among tied maxima the lowest
index is chosen, deterministically.  The last conjunct records that each
iteration of the selection loop does use exactly this index, both to copy
the population row and to place the sentinel. -/
theorem make_selection_tiebreak_lowest (fit : List ℚ) (h : fit ≠ []) :
    selectIdx fit < fit.length
    ∧ fit.getD (selectIdx fit) 0 = npMax fit
    ∧ (∀ j, j < selectIdx fit → fit.getD j 0 ≠ npMax fit)
    ∧ (∀ (pop : List (List ℚ)) (k : Nat) (acc : List (List ℚ)),
        selection_loop pop (k + 1) fit acc
          = match pop.get? (selectIdx fit) with
            | none => none
            | some row =>
                selection_loop pop k (fit.set (selectIdx fit) selection_sentinel)
                  (acc ++ [row])) := by
  refine ⟨selectIdx_lt_length h, getD_selectIdx h,
    fun j hj => selectIdx_lowest hj, fun pop k acc => ?_⟩
  rw [selection_loop]
  simp [List.isEmpty_iff, h]

/-- Witness for C3 at the spec's example vector `[3, 7, 1, 7]`. -/
theorem make_selection_tiebreak_lowest_witness :
    ([3, 7, 1, 7] : List ℚ) ≠ []
    ∧ (selectIdx [3, 7, 1, 7] < ([3, 7, 1, 7] : List ℚ).length
        ∧ ([3, 7, 1, 7] : List ℚ).getD (selectIdx [3, 7, 1, 7]) 0 = npMax [3, 7, 1, 7]
        ∧ (∀ j, j < selectIdx [3, 7, 1, 7] →
            ([3, 7, 1, 7] : List ℚ).getD j 0 ≠ npMax [3, 7, 1, 7])
        ∧ (∀ (pop : List (List ℚ)) (k : Nat) (acc : List (List ℚ)),
            selection_loop pop (k + 1) [3, 7, 1, 7] acc
              = match pop.get? (selectIdx [3, 7, 1, 7]) with
                | none => none
                | some row =>
                    selection_loop pop k
                      (([3, 7, 1, 7] : List ℚ).set (selectIdx [3, 7, 1, 7])
                        selection_sentinel) (acc ++ [row]))) :=
  ⟨by simp, make_selection_tiebreak_lowest [3, 7, 1, 7] (by simp)⟩

/-! Structure of the crossover operator. -/

theorem crossover_point_le (G : Nat) : crossover_point G ≤ G :=
  le_trans (Nat.mod_le _ _) (Nat.div_le_self G 2)

/-- Claim C4 (amended): with the crossover point `c = (G / 2) % 256` — the
`np.uint8` cast truncates the halved gene count and wraps it modulo 256 —
`crossover` on a nonempty pool of `K` parents of width `G` returns `M`
offspring of width `G`; offspring `i` holds parent `(i % K)`'s genes at
positions below `c` and parent `((i + 1) % K)`'s genes at positions from
`c` on.  For `G < 512` the wrap is inactive and `c = ⌊G / 2⌋` exactly as
the claim states.  The output is a pure function of the inputs, hence
identical across repeated calls. -/
theorem crossover_rows (t_survivor : List (List ℚ)) (M G K : Nat)
    (hne : t_survivor ≠ []) (hKlen : t_survivor.length = K)
    (hG : ∀ p ∈ t_survivor, p.length = G) :
    ∃ off, crossover t_survivor (M, G) = some off
      ∧ off.length = M
      ∧ (∀ q ∈ off, q.length = G)
      ∧ (∀ i, i < M →
          off.getD i []
            = (t_survivor.getD (i % K) []).take (crossover_point G)
                ++ (t_survivor.getD ((i + 1) % K) []).drop (crossover_point G))
      ∧ (∀ i, i < M → ∀ j : Nat,
          (j < crossover_point G →
            (off.getD i []).getD j 0 = (t_survivor.getD (i % K) []).getD j 0)
          ∧ (crossover_point G ≤ j →
            (off.getD i []).getD j 0
              = (t_survivor.getD ((i + 1) % K) []).getD j 0))
      ∧ (G < 512 → crossover_point G = G / 2) := by
  have hlen0 : 0 < t_survivor.length := List.length_pos.mpr hne
  have hrow : ∀ n : Nat, (t_survivor.getD (n % K) []).length = G := by
    intro n
    subst hKlen
    have hn : n % t_survivor.length < t_survivor.length := Nat.mod_lt _ hlen0
    apply hG
    rw [List.getD_eq_getElem?_getD, List.getElem?_eq_getElem hn]
    exact List.getElem_mem hn
  subst hKlen
  refine ⟨(List.range M).map (fun i =>
    ((t_survivor.getD (i % t_survivor.length) []).take (crossover_point G))
      ++ ((t_survivor.getD ((i + 1) % t_survivor.length) []).drop
            (crossover_point G))), ?_, ?_, ?_, ?_, ?_, ?_⟩
  · rw [crossover]
    simp [List.isEmpty_iff, hne]
  · simp
  · intro q hq
    simp only [List.mem_map, List.mem_range] at hq
    obtain ⟨i, _, rfl⟩ := hq
    have h1 := hrow i
    have h2 := hrow (i + 1)
    have hc := crossover_point_le G
    simp only [List.length_append, List.length_take, List.length_drop, h1, h2]
    omega
  · intro i hi
    rw [List.getD_eq_getElem?_getD]
    have hi2 : i < (List.range M).length := by simpa using hi
    simp [List.getElem?_map, List.getElem?_range, hi]
  · intro i hi j
    have hrowi : (t_survivor.getD (i % t_survivor.length) []).length = G := hrow i
    have hrowi1 : (t_survivor.getD ((i + 1) % t_survivor.length) []).length = G :=
      hrow (i + 1)
    have hoff : ((List.range M).map (fun i =>
        ((t_survivor.getD (i % t_survivor.length) []).take (crossover_point G))
          ++ ((t_survivor.getD ((i + 1) % t_survivor.length) []).drop
                (crossover_point G)))).getD i []
        = (t_survivor.getD (i % t_survivor.length) []).take (crossover_point G)
            ++ (t_survivor.getD ((i + 1) % t_survivor.length) []).drop
                (crossover_point G) := by
      rw [List.getD_eq_getElem?_getD]
      simp [List.getElem?_map, List.getElem?_range, hi]
    have htake : ((t_survivor.getD (i % t_survivor.length) []).take
        (crossover_point G)).length = crossover_point G := by
      rw [List.length_take, hrowi]
      exact Nat.min_eq_left (crossover_point_le G)
    constructor
    · intro hj
      rw [hoff, List.getD_eq_getElem?_getD, List.getElem?_append_left (by omega),
        List.getElem?_take_of_lt hj, ← List.getD_eq_getElem?_getD]
    · intro hj
      rw [hoff, List.getD_eq_getElem?_getD, List.getElem?_append_right (by omega),
        htake, List.getElem?_drop]
      have hcj : crossover_point G + (j - crossover_point G) = j := by omega
      rw [hcj, ← List.getD_eq_getElem?_getD]
  · intro hlt
    have : G / 2 < 256 := by omega
    exact Nat.mod_eq_of_lt this

/-- Witness for C4 on the concrete pool `[[1,2,3,4],[5,6,7,8]]` with
`K = 2`, `M = 2`, `G = 4`. -/
theorem crossover_rows_witness :
    ∃ off, crossover [[1, 2, 3, 4], [5, 6, 7, 8]] (2, 4) = some off
      ∧ off.length = 2
      ∧ (∀ q ∈ off, q.length = 4)
      ∧ (∀ i, i < 2 →
          off.getD i []
            = (([[1, 2, 3, 4], [5, 6, 7, 8]] : List (List ℚ)).getD (i % 2) []).take
                (crossover_point 4)
                ++ (([[1, 2, 3, 4], [5, 6, 7, 8]] : List (List ℚ)).getD
                      ((i + 1) % 2) []).drop (crossover_point 4))
      ∧ (∀ i, i < 2 → ∀ j : Nat,
          (j < crossover_point 4 →
            (off.getD i []).getD j 0
              = (([[1, 2, 3, 4], [5, 6, 7, 8]] : List (List ℚ)).getD (i % 2) []).getD
                  j 0)
          ∧ (crossover_point 4 ≤ j →
            (off.getD i []).getD j 0
              = (([[1, 2, 3, 4], [5, 6, 7, 8]] : List (List ℚ)).getD
                  ((i + 1) % 2) []).getD j 0))
      ∧ (4 < 512 → crossover_point 4 = 4 / 2) :=
  crossover_rows [[1, 2, 3, 4], [5, 6, 7, 8]] 2 4 2 (by simp) (by simp)
    (by
      intro p hp
      rcases List.mem_cons.mp hp with h | h
      · subst h; rfl
      · have h2 := List.mem_singleton.mp h
        subst h2; rfl)

/-- Claim C4, counterexample: the claim's crossover point `c = ⌊G / 2⌋` is wrong
at `G = 512`.  There `np.uint8(512 / 2) = 256 % 256 = 0`, so gene 0 of
offspring 0 — which lies below `⌊512 / 2⌋ = 256` and by the claim must be
copied from parent `0 % K = 0` (all zeros) — is in fact `1`, copied from
parent `1` (all ones). -/
theorem crossover_uint8_wrap_counterexample :
    crossover [List.replicate 512 (0 : ℚ), List.replicate 512 (1 : ℚ)] (1, 512)
      = some [List.replicate 512 (1 : ℚ)]
    ∧ (List.replicate 512 (1 : ℚ)).getD 0 0 = 1
    ∧ (List.replicate 512 (0 : ℚ)).getD 0 0 = 0
    ∧ (0 : Nat) < 512 / 2
    ∧ (1 : ℚ) ≠ 0 :=
  ⟨by with_unfolding_all rfl, by simp, by simp, by norm_num, by norm_num⟩

/-- Claim C10: the crossover loop, rendered as a state machine over the pair of
arrays it touches, never writes to the parent pool: every write targets
the `offspring` buffer, and whenever `crossover_run` finishes, the
`survivor` component of the final state is exactly the input parent pool. -/
theorem crossover_run_preserves_survivor (t_survivor : List (List ℚ))
    (t_size : Nat × Nat) (init : List (List ℚ)) (st : CrossoverState)
    (h : crossover_run t_survivor t_size init = some st) :
    st.survivor = t_survivor := by
  have hfold : ∀ (c : Nat) (l : List Nat) (s : CrossoverState),
      (l.foldl (crossover_body c) s).survivor = s.survivor := by
    intro c l
    induction l with
    | nil => intro s; rfl
    | cons x xs ih =>
      intro s
      rw [List.foldl_cons]
      rw [ih (crossover_body c s x)]
      rfl
  rw [crossover_run] at h
  by_cases he : t_survivor.isEmpty
  · simp [he] at h
  · simp only [he, if_false] at h
    injection h with h
    subst h
    exact hfold _ _ _

/-- Witness for C10 at a concrete run: one offspring built from the single
parent `[1, 2]` into the uninitialised buffer `[[0, 0]]`. -/
theorem crossover_run_preserves_survivor_witness :
    (CrossoverState.mk [[(1 : ℚ), 2]] [[(1 : ℚ), 2]]).survivor = [[(1 : ℚ), 2]] :=
  crossover_run_preserves_survivor [[1, 2]] (1, 2) [[0, 0]]
    (CrossoverState.mk [[(1 : ℚ), 2]] [[(1 : ℚ), 2]]) (by with_unfolding_all rfl)

/-! Structure of the mutation operator. -/

theorem mutate_loop_some (r : Nat → ℚ) :
    ∀ (off : List (List ℚ)) (idx : Nat) (out : List (List ℚ)),
      mutate_loop r idx off = some out →
      out.length = off.length
      ∧ ∀ i, i < off.length →
          out.getD i []
            = (off.getD i []).set 4 ((off.getD i []).getD 4 0 + r (idx + i))
          ∧ 4 < (off.getD i []).length := by
  intro off
  induction off with
  | nil =>
    intro idx out h
    rw [mutate_loop] at h
    injection h with h
    subst h
    exact ⟨rfl, fun i hi => absurd hi (by simp)⟩
  | cons row rest ih =>
    intro idx out h
    rw [mutate_loop] at h
    cases hg : row.get? 4 with
    | none => rw [hg] at h; cases h
    | some x =>
      rw [hg] at h
      cases hm : mutate_loop r (idx + 1) rest with
      | none => rw [hm] at h; cases h
      | some rest2 =>
        rw [hm] at h
        injection h with h
        subst h
        obtain ⟨hlen, hrows⟩ := ih (idx + 1) rest2 hm
        have hxlt : 4 < row.length := by
          by_contra hle
          rw [List.get?_eq_none.mpr (by omega)] at hg
          cases hg
        have hx : row.getD 4 0 = x := by
          rw [List.getD_eq_getElem?_getD, ← List.get?_eq_getElem?, hg]
          rfl
        refine ⟨by simp [hlen], ?_⟩
        intro i hi
        cases i with
        | zero =>
          refine ⟨?_, by simpa using hxlt⟩
          simp only [List.getD_cons_zero, Nat.add_zero]
          rw [hx]
        | succ n =>
          have hn : n < rest.length := by simpa using hi
          obtain ⟨h1, h2⟩ := hrows n hn
          refine ⟨?_, by simpa using h2⟩
          simp only [List.getD_cons_succ]
          rw [h1]
          have : idx + 1 + n = idx + (n + 1) := by omega
          rw [this]

/-- Claim C5: whenever `mutate` succeeds, it changes only gene index 4 of each
row: the output has the same number of rows, every row keeps its length,
every gene at an index other than 4 is identical to its pre-mutation
value, and the gene at index 4 of row `i` is its old value plus the single
random draw `r i` of that row.  (The draws `r` model
`np.random.uniform(-1., 1., 1)`; their distribution lives outside the
embedding, and the in-place character of the numpy write is rendered by
state passing: the returned pool is the mutated input.) -/
theorem mutate_changes_only_gene4 (r : Nat → ℚ) (off out : List (List ℚ))
    (h : mutate r off = some out) :
    out.length = off.length
    ∧ (∀ i j : Nat, j ≠ 4 → (out.getD i []).getD j 0 = (off.getD i []).getD j 0)
    ∧ (∀ i, i < off.length →
        (out.getD i []).getD 4 0 = (off.getD i []).getD 4 0 + r i)
    ∧ (∀ i, (out.getD i []).length = (off.getD i []).length) := by
  obtain ⟨hlen, hrows⟩ := mutate_loop_some r off 0 out h
  have hout : ∀ i, ¬ i < off.length → out.getD i [] = ([] : List ℚ) := by
    intro i hi
    rw [List.getD_eq_getElem?_getD, List.getElem?_eq_none (by omega)]
    rfl
  have hoff : ∀ i, ¬ i < off.length → off.getD i [] = ([] : List ℚ) := by
    intro i hi
    rw [List.getD_eq_getElem?_getD, List.getElem?_eq_none (by omega)]
    rfl
  refine ⟨hlen, ?_, ?_, ?_⟩
  · intro i j hj
    by_cases hi : i < off.length
    · obtain ⟨h1, _⟩ := hrows i hi
      rw [h1, List.getD_eq_getElem?_getD, List.getElem?_set_ne (by omega),
        ← List.getD_eq_getElem?_getD]
    · rw [hout i hi, hoff i hi]
  · intro i hi
    obtain ⟨h1, h2⟩ := hrows i hi
    rw [h1, List.getD_eq_getElem?_getD, List.getElem?_set_self (by simpa using h2)]
    simp
  · intro i
    by_cases hi : i < off.length
    · obtain ⟨h1, _⟩ := hrows i hi
      rw [h1, List.length_set]
    · rw [hout i hi, hoff i hi]

/-- Witness for C5: mutating the single five-gene row `[1, 2, 3, 4, 5]`
with the constant draw 1 yields `[1, 2, 3, 4, 6]`. -/
theorem mutate_changes_only_gene4_witness :
    ([[(1 : ℚ), 2, 3, 4, 6]] : List (List ℚ)).length
        = ([[(1 : ℚ), 2, 3, 4, 5]] : List (List ℚ)).length
    ∧ (∀ i j : Nat, j ≠ 4 →
        (([[(1 : ℚ), 2, 3, 4, 6]] : List (List ℚ)).getD i []).getD j 0
          = (([[(1 : ℚ), 2, 3, 4, 5]] : List (List ℚ)).getD i []).getD j 0)
    ∧ (∀ i, i < ([[(1 : ℚ), 2, 3, 4, 5]] : List (List ℚ)).length →
        (([[(1 : ℚ), 2, 3, 4, 6]] : List (List ℚ)).getD i []).getD 4 0
          = (([[(1 : ℚ), 2, 3, 4, 5]] : List (List ℚ)).getD i []).getD 4 0
              + (fun _ : Nat => (1 : ℚ)) i)
    ∧ (∀ i, (([[(1 : ℚ), 2, 3, 4, 6]] : List (List ℚ)).getD i []).length
        = (([[(1 : ℚ), 2, 3, 4, 5]] : List (List ℚ)).getD i []).length) :=
  mutate_changes_only_gene4 (fun _ => 1) [[1, 2, 3, 4, 5]] [[1, 2, 3, 4, 6]]
    (by with_unfolding_all rfl)

theorem mutate_loop_none_iff (r : Nat → ℚ) (G : Nat) :
    ∀ (off : List (List ℚ)) (idx : Nat), (∀ row ∈ off, row.length = G) →
      (mutate_loop r idx off = none ↔ (off ≠ [] ∧ G ≤ 4)) := by
  intro off
  induction off with
  | nil =>
    intro idx _
    rw [mutate_loop]
    simp
  | cons row rest ih =>
    intro idx hG
    have hrow : row.length = G := hG row (List.mem_cons_self row rest)
    rw [mutate_loop]
    by_cases h4 : G ≤ 4
    · rw [List.get?_eq_none.mpr (by omega)]
      simp [h4]
    · have hlt : 4 < row.length := by omega
      rw [List.get?_eq_getElem?, List.getElem?_eq_getElem hlt]
      have hrest := ih (idx + 1) (fun q hq => hG q (List.mem_cons_of_mem row hq))
      constructor
      · intro hnone
        cases hm : mutate_loop r (idx + 1) rest with
        | none => exact absurd (hrest.mp hm).2 h4
        | some rest2 => rw [hm] at hnone; cases hnone
      · intro hand
        exact absurd hand.2 h4

/-- Claim C6 (amended): `mutate` fails with the out-of-bounds error iff the
offspring pool is nonempty AND the gene count `G` is at most 4; for
`G ≥ 5`, or for a pool with zero rows (whatever its column count), it
succeeds.  The claim's original "fails iff `G ≤ 4`" misses the empty-pool
case, where the loop body never executes and no index is ever accessed. -/
theorem mutate_fails_iff_nonempty_and_narrow (r : Nat → ℚ)
    (off : List (List ℚ)) (G : Nat) (hG : ∀ row ∈ off, row.length = G) :
    mutate r off = none ↔ (off ≠ [] ∧ G ≤ 4) :=
  mutate_loop_none_iff r G off 0 hG

/-- Witness for C6 on the one-row pool `[[1, 2, 3]]` of width 3. -/
theorem mutate_fails_iff_nonempty_and_narrow_witness :
    mutate (fun _ => (0 : ℚ)) [[1, 2, 3]] = none
      ↔ (([[1, 2, 3]] : List (List ℚ)) ≠ [] ∧ 3 ≤ 4) :=
  mutate_fails_iff_nonempty_and_narrow (fun _ => 0) [[1, 2, 3]] 3
    (by
      intro row hrow
      have h2 := List.mem_singleton.mp hrow
      subst h2
      rfl)

/-- Claim C6, counterexample: the claim as stated fails on a pool with zero rows.
A numpy array of shape `0 × 3` has gene count `G = 3 ≤ 4`, yet `mutate`
succeeds on it (the loop over rows never runs), so "fails if and only if
`G ≤ 4`" is false. -/
theorem mutate_empty_pool_succeeds :
    mutate (fun _ => (0 : ℚ)) ([] : List (List ℚ)) = some [] ∧ (3 : Nat) ≤ 4 :=
  ⟨rfl, by norm_num⟩

/-! The fitness evaluator. -/

theorem zipWith_mul_sum (xs : List ℚ) : ∀ ys : List ℚ,
    (List.zipWith (fun a b => a * b) xs ys).sum
      = Finset.sum (Finset.range xs.length) fun j => xs.getD j 0 * ys.getD j 0 := by
  induction xs with
  | nil => intro ys; simp
  | cons x xs ih =>
    intro ys
    cases ys with
    | nil => simp
    | cons y ys =>
      simp only [List.zipWith_cons_cons, List.sum_cons, ih ys, List.length_cons,
        Finset.sum_range_succ']
      simp only [List.getD_cons_succ, List.getD_cons_zero]
      ring

/-- Claim C7: `evaluate_fitness` returns one score per candidate, and the score
of candidate `i` is the dot product of its genes with the equation
coefficients (the indexed sum over the `G` gene positions).  The function
builds a fresh list and, in the embedding, is pure — neither input is
mutated. -/
theorem evaluate_fitness_is_dot_product (t_eq : List ℚ) (pop : List (List ℚ))
    (G : Nat) (heq : t_eq.length = G) (hpop : ∀ row ∈ pop, row.length = G) :
    (evaluate_fitness t_eq pop).length = pop.length
    ∧ ∀ i, i < pop.length →
        (evaluate_fitness t_eq pop).getD i 0 = dot_product (pop.getD i []) t_eq G := by
  constructor
  · simp [evaluate_fitness]
  · intro i hi
    have hg : pop.getD i [] ∈ pop := by
      rw [List.getD_eq_getElem?_getD, List.getElem?_eq_getElem hi]
      exact List.getElem_mem hi
    have hlen : (pop.getD i []).length = G := hpop _ hg
    rw [evaluate_fitness, List.getD_eq_getElem?_getD, List.getElem?_map,
      List.getElem?_eq_getElem hi]
    simp only [Option.map_some', Option.getD_some]
    rw [show pop[i] = pop.getD i [] by
      rw [List.getD_eq_getElem?_getD, List.getElem?_eq_getElem hi]; rfl]
    rw [zipWith_mul_sum, hlen, dot_product]

/-- Witness for C7 at the spec's example: equation `(1, 2, 3)` and the
single candidate `(1, 1, 1)` give fitness `6`. -/
theorem evaluate_fitness_is_dot_product_witness :
    ((evaluate_fitness [1, 2, 3] [[1, 1, 1]]).length
        = ([[(1 : ℚ), 1, 1]] : List (List ℚ)).length
      ∧ ∀ i, i < ([[(1 : ℚ), 1, 1]] : List (List ℚ)).length →
          (evaluate_fitness [1, 2, 3] [[1, 1, 1]]).getD i 0
            = dot_product (([[(1 : ℚ), 1, 1]] : List (List ℚ)).getD i []) [1, 2, 3] 3)
    ∧ evaluate_fitness [1, 2, 3] [[1, 1, 1]] = [6] :=
  ⟨evaluate_fitness_is_dot_product [1, 2, 3] [[1, 1, 1]] 3 rfl
      (by
        intro row hrow
        have h2 := List.mem_singleton.mp hrow
        subst h2
        rfl),
    by with_unfolding_all rfl⟩

/-! Shape lemmas feeding the generational loop. -/

theorem crossover_shape (t_survivor : List (List ℚ)) (M G : Nat)
    (hne : t_survivor ≠ []) (hG : ∀ p ∈ t_survivor, p.length = G) :
    ∃ off, crossover t_survivor (M, G) = some off ∧ off.length = M
      ∧ ∀ q ∈ off, q.length = G := by
  have hlen0 : 0 < t_survivor.length := List.length_pos.mpr hne
  have hrow : ∀ n : Nat, (t_survivor.getD (n % t_survivor.length) []).length = G := by
    intro n
    have hn : n % t_survivor.length < t_survivor.length := Nat.mod_lt _ hlen0
    apply hG
    rw [List.getD_eq_getElem?_getD, List.getElem?_eq_getElem hn]
    exact List.getElem_mem hn
  refine ⟨(List.range M).map (fun i =>
    ((t_survivor.getD (i % t_survivor.length) []).take (crossover_point G))
      ++ ((t_survivor.getD ((i + 1) % t_survivor.length) []).drop
            (crossover_point G))), ?_, by simp, ?_⟩
  · rw [crossover]
    simp [List.isEmpty_iff, hne]
  · intro q hq
    simp only [List.mem_map, List.mem_range] at hq
    obtain ⟨i, _, rfl⟩ := hq
    have h1 := hrow i
    have h2 := hrow (i + 1)
    have hc := crossover_point_le G
    simp only [List.length_append, List.length_take, List.length_drop, h1, h2]
    omega

theorem mutate_shape (r : Nat → ℚ) (off out : List (List ℚ)) (G : Nat)
    (h : mutate r off = some out) (hG : ∀ q ∈ off, q.length = G) :
    out.length = off.length ∧ ∀ q ∈ out, q.length = G := by
  obtain ⟨hlen, hrows⟩ := mutate_loop_some r off 0 out h
  refine ⟨hlen, ?_⟩
  intro q hq
  obtain ⟨i, hilt, hqi⟩ := List.getElem_of_mem hq
  have hi : i < off.length := by omega
  obtain ⟨h1, _⟩ := hrows i hi
  have hgd : out.getD i [] = q := by
    rw [List.getD_eq_getElem?_getD, List.getElem?_eq_getElem hilt]
    simpa using hqi
  have hoffmem : off.getD i [] ∈ off := by
    rw [List.getD_eq_getElem?_getD, List.getElem?_eq_getElem hi]
    exact List.getElem_mem hi
  rw [← hgd, h1, List.length_set]
  exact hG _ hoffmem

theorem mutate_some_of_wide (r : Nat → ℚ) (off : List (List ℚ)) (G : Nat)
    (hG : ∀ q ∈ off, q.length = G) (hG5 : 5 ≤ G) :
    ∃ out, mutate r off = some out := by
  cases hm : mutate r off with
  | none =>
    have hx := (mutate_loop_none_iff r G off 0 hG).mp hm
    omega
  | some out => exact ⟨out, rfl⟩

theorem make_selection_shape (pop : List (List ℚ)) (fit : List ℚ) (K G : Nat)
    (hlen : fit.length = pop.length) (hne : pop ≠ [])
    (hG : ∀ row ∈ pop, row.length = G) :
    ∃ surv ffit, make_selection pop fit K = some (surv, ffit)
      ∧ surv.length = K ∧ ∀ q ∈ surv, q.length = G := by
  obtain ⟨surv, ffit, hrun, hslen, _⟩ := selection_loop_some pop hne K fit [] hlen
  exact ⟨surv, ffit, hrun, by simpa using hslen,
    fun q hq => hG q (selection_loop_mem pop K fit [] surv ffit hrun
      (by intro z hz; cases hz) q hq)⟩

theorem generation_step_shape (r : Nat → ℚ) (eq : List ℚ) (P G K : Nat)
    (hK1 : 1 ≤ K) (hKP : K ≤ P) (hG5 : 5 ≤ G)
    (pop : List (List ℚ)) (hP : pop.length = P)
    (hG : ∀ row ∈ pop, row.length = G) :
    ∃ parents mu,
      parents.length = K ∧ (∀ q ∈ parents, q.length = G)
      ∧ mu.length = P - K ∧ (∀ q ∈ mu, q.length = G)
      ∧ generation_step r eq P G K pop = some (parents ++ mu)
      ∧ (parents ++ mu).take K = parents
      ∧ (parents ++ mu).drop K = mu
      ∧ (parents ++ mu).length = P
      ∧ (∀ q ∈ parents ++ mu, q.length = G) := by
  have hpne : pop ≠ [] := by
    intro h
    rw [h] at hP
    simp at hP
    omega
  have hfit : (evaluate_fitness eq pop).length = pop.length := by
    simp [evaluate_fitness]
  obtain ⟨parents, ffit, hsel, hplen, hpG⟩ :=
    make_selection_shape pop (evaluate_fitness eq pop) K G hfit hpne hG
  have hpne2 : parents ≠ [] := by
    intro h
    rw [h] at hplen
    simp at hplen
    omega
  obtain ⟨cro, hcro, hclen, hcG⟩ := crossover_shape parents (P - K) G hpne2 hpG
  obtain ⟨mu, hmu⟩ := mutate_some_of_wide r cro G hcG hG5
  obtain ⟨hmulen, hmuG⟩ := mutate_shape r cro mu G hmu hcG
  have hmulen2 : mu.length = P - K := by rw [hmulen, hclen]
  have hstep : generation_step r eq P G K pop
      = some (assign_rows (assign_rows pop 0 parents) parents.length mu) := by
    rw [generation_step, hsel]
    simp only [Option.some_bind]
    rw [hplen, hcro]
    simp only [Option.some_bind]
    rw [hmu]
    rfl
  have hassign : assign_rows (assign_rows pop 0 parents) parents.length mu
      = parents ++ mu := by
    have h1 : assign_rows pop 0 parents = parents ++ pop.drop parents.length := by
      simp [assign_rows]
    rw [assign_rows, h1, List.take_left]
    have hmidlen : (parents ++ pop.drop parents.length).length = P := by
      simp only [List.length_append, List.length_drop]
      omega
    rw [List.drop_eq_nil_iff.mpr (by omega)]
    simp
  rw [hassign] at hstep
  refine ⟨parents, mu, hplen, hpG, hmulen2, hmuG, hstep,
    List.take_left' hplen, List.drop_left' hplen, ?_, ?_⟩
  · simp only [List.length_append]
    omega
  · intro q hq
    rcases List.mem_append.mp hq with h | h
    · exact hpG q h
    · exact hmuG q h

theorem ga_loop_shape (rs : Nat → Nat → ℚ) (eq : List ℚ) (P G K : Nat)
    (hK1 : 1 ≤ K) (hKP : K ≤ P) (hG5 : 5 ≤ G) :
    ∀ (n : Nat) (pop : List (List ℚ)), pop.length = P →
      (∀ row ∈ pop, row.length = G) →
      ∃ pop2, ga_loop rs eq P G K n pop = some pop2
        ∧ pop2.length = P ∧ ∀ row ∈ pop2, row.length = G := by
  intro n
  induction n with
  | zero =>
    intro pop hP hG
    exact ⟨pop, by rw [ga_loop], hP, hG⟩
  | succ g ih =>
    intro pop hP hG
    obtain ⟨parents, mu, _, _, _, _, hstep, _, _, hlen, hrows⟩ :=
      generation_step_shape (rs g) eq P G K hK1 hKP hG5 pop hP hG
    obtain ⟨pop2, hrun, h2, h3⟩ := ih (parents ++ mu) hlen hrows
    refine ⟨pop2, ?_, h2, h3⟩
    rw [ga_loop, hstep]
    simpa using hrun

/-- Claim C8: for driver parameters with `1 ≤ K ≤ P` and `G ≥ 5` (the script
uses `P = 8`, `K = 4`, `G = 6`), every generation preserves the shapes:
the parent pool is `K × G`, the mutated offspring pool is `(P - K) × G`,
the step succeeds and produces exactly `parents ++ offspring` — rows
`0..K-1` are the parents and rows `K..P-1` the mutated offspring, the old
population being entirely replaced — and after any number of generations
the population still has exactly `P` rows of `G` genes each. -/
theorem ga_generations_shape (rs : Nat → Nat → ℚ) (eq : List ℚ) (P G K : Nat)
    (hK1 : 1 ≤ K) (hKP : K ≤ P) (hG5 : 5 ≤ G) :
    (∀ (r : Nat → ℚ) (pop : List (List ℚ)), pop.length = P →
        (∀ row ∈ pop, row.length = G) →
        ∃ parents mu, parents.length = K ∧ (∀ q ∈ parents, q.length = G)
          ∧ mu.length = P - K ∧ (∀ q ∈ mu, q.length = G)
          ∧ generation_step r eq P G K pop = some (parents ++ mu)
          ∧ (parents ++ mu).take K = parents ∧ (parents ++ mu).drop K = mu
          ∧ (parents ++ mu).length = P ∧ ∀ q ∈ parents ++ mu, q.length = G)
    ∧ ∀ (n : Nat) (pop : List (List ℚ)), pop.length = P →
        (∀ row ∈ pop, row.length = G) →
        ∃ pop2, ga_loop rs eq P G K n pop = some pop2
          ∧ pop2.length = P ∧ ∀ row ∈ pop2, row.length = G :=
  ⟨fun r pop hP hG => generation_step_shape r eq P G K hK1 hKP hG5 pop hP hG,
    ga_loop_shape rs eq P G K hK1 hKP hG5⟩

/-- Witness for C8: three generations on a concrete `2 × 5` population
with `K = 1` terminate with a population that is still `2 × 5`. -/
theorem ga_generations_shape_witness :
    ∃ pop2, ga_loop (fun _ _ => (0 : ℚ)) [1, 1, 1, 1, 1] 2 5 1 3
        [[0, 0, 0, 0, 0], [1, 1, 1, 1, 1]] = some pop2
      ∧ pop2.length = 2 ∧ ∀ row ∈ pop2, row.length = 5 :=
  (ga_generations_shape (fun _ _ => 0) [1, 1, 1, 1, 1] 2 5 1
      (by norm_num) (by norm_num) (by norm_num)).2 3
    [[0, 0, 0, 0, 0], [1, 1, 1, 1, 1]] (by rfl)
    (by
      intro row hrow
      rcases List.mem_cons.mp hrow with h | h
      · subst h; rfl
      · have h2 := List.mem_singleton.mp h
        subst h2; rfl)

end GaDecimal
